import Mathlib

/-!
Verification of the qoolqit embedding and unit-conversion core.

Shallow embedding of the following source files, with exact rational or real
arithmetic in place of IEEE floats:

- qoolqit/devices/unit_converter.py       (dataclass UnitConverter, factor helpers)
- qoolqit/execution/unit_converter.py     (device-driven UnitConverter with setters)
- qoolqit/embedding/matrix_embedder.py    (MatrixToGraphEmbedder.validate_input)
- qoolqit/embedding/algorithms/blade/_distances_constraints_calculator.py
- qoolqit/embedding/algorithms/blade/_interactions_forces.py
- qoolqit/embedding/algorithms/blade/_helpers.py
- qoolqit/embedding/algorithms/blade_embedding/_qubo_mapper.py

Python exceptions are modelled with Except; numpy elementwise operations are
modelled pointwise; numpy reductions are modelled as list folds.
-/

/-- Decidable equality for Except values, used to evaluate modelled fallible
calls on concrete inputs. -/
instance exceptDecEq {ε α : Type} [DecidableEq ε] [DecidableEq α] :
    DecidableEq (Except ε α) := fun x y =>
  match x, y with
  | .ok a, .ok b =>
      if h : a = b then .isTrue (by rw [h])
      else .isFalse (by intro hc; injection hc; contradiction)
  | .ok _, .error _ => .isFalse (by intro hc; exact Except.noConfusion hc)
  | .error _, .ok _ => .isFalse (by intro hc; exact Except.noConfusion hc)
  | .error a, .error b =>
      if h : a = b then .isTrue (by rw [h])
      else .isFalse (by intro hc; injection hc; contradiction)

/-- Model of math.isclose with its default tolerances rel_tol = 1e-9 and
abs_tol = 0.0: abs(a-b) <= max(rel_tol * max(abs(a), abs(b)), abs_tol). -/
def mathIsclose (a b : ℚ) : Prop :=
  |a - b| ≤ max ((1 / 1000000000) * |a|) ((1 / 1000000000) * |b|)

instance mathIsclose.dec (a b : ℚ) : Decidable (mathIsclose a b) :=
  inferInstanceAs (Decidable (_ ≤ _))

/-- Error raised by UnitConverter._validate_factors: which of the two
invariants failed (the two ValueError messages in the source). -/
inductive ConverterErr : Type
  | timeEnergy
  | energyDistance
deriving DecidableEq

/-- Model of qoolqit.devices.unit_converter._factors_from_distance.
The source computes energy = C6 / distance, with no sixth power, and
time = 1000 / energy; the returned tuple is (time, energy, distance). -/
def factorsFromDistance (C6 distance : ℚ) : ℚ × ℚ × ℚ :=
  (1000 / (C6 / distance), C6 / distance, distance)

/-- State of qoolqit.devices.unit_converter.UnitConverter: the interaction
coefficient and the three conversion factors. -/
structure UnitConverter : Type where
  C6 : ℚ
  time : ℚ
  energy : ℚ
  distance : ℚ
deriving DecidableEq

/-- Model of UnitConverter._validate_factors: checks time * energy against
1000 and distance ** 6 * energy against C6 with math.isclose, raising
ValueError on the first failure. -/
def validateFactors (C6 time energy distance : ℚ) : Except ConverterErr Unit :=
  if ¬ mathIsclose (time * energy) 1000 then .error .timeEnergy
  else if ¬ mathIsclose (distance ^ (6 : ℕ) * energy) C6 then .error .energyDistance
  else .ok ()

/-- Model of UnitConverter construction (dataclass init plus __post_init__,
which validates the factors and raises ValueError when they are invalid). -/
def UnitConverter.make (C6 time energy distance : ℚ) : Except ConverterErr UnitConverter :=
  (validateFactors C6 time energy distance).map fun _ => ⟨C6, time, energy, distance⟩

/-- Model of the classmethod UnitConverter.from_distance. -/
def UnitConverter.fromDistance (C6 distance : ℚ) : Except ConverterErr UnitConverter :=
  UnitConverter.make C6 (factorsFromDistance C6 distance).1
    (factorsFromDistance C6 distance).2.1 (factorsFromDistance C6 distance).2.2

/-- Model of the factors property setter: validate the new triple first
(raising ValueError on an invariant violation), then assign the three
fields. The tuple-shape check of the source is enforced by the type. -/
def UnitConverter.setFactors (u : UnitConverter) (v : ℚ × ℚ × ℚ) :
    Except ConverterErr UnitConverter :=
  (validateFactors u.C6 v.1 v.2.1 v.2.2).map fun _ => ⟨u.C6, v.1, v.2.1, v.2.2⟩

/-- State observed by a caller that catches the ValueError: since validation
precedes every assignment in the setter body, the converter keeps its old
fields when the setter raises. -/
def UnitConverter.applySetFactors (u : UnitConverter) (v : ℚ × ℚ × ℚ) : UnitConverter :=
  match u.setFactors v with
  | .ok u2 => u2
  | .error _ => u

/-- Error raised by MatrixToGraphEmbedder.validate_input. The type and
dimensionality checks of the source are enforced by the model type; the
remaining failures are the symmetry ValueError raised by the source and
the ValueError numpy itself raises inside np.allclose when the shapes
(r, c) and (c, r) cannot be broadcast together. -/
inductive MatrixErr : Type
  | asymmetric
  | broadcastMismatch
deriving DecidableEq

/-- Model of MatrixToGraphEmbedder.validate_input on an n-by-n matrix:
np.allclose(data, data.T, rtol=0.0, atol=1e-7), i.e. every entry within
absolute tolerance 1e-7 of its transpose, else ValueError. No sign
condition is checked. -/
def validateInput (n : ℕ) (M : ℕ → ℕ → ℚ) : Except MatrixErr Unit :=
  if ∀ i, i < n → ∀ j, j < n → |M i j - M j i| ≤ 1 / 10000000 then .ok ()
  else .error .asymmetric

/-- Model of MatrixToGraphEmbedder.validate_input on a general r-by-c 2-D
array. The source has no explicit squareness check: np.allclose(data,
data.T, ...) broadcasts the shapes (r, c) and (c, r). For r = c this is the
square check above; for non-square shapes with both dimensions above 1 the
broadcast fails and numpy raises a ValueError; a one-row (respectively
one-column) array is broadcast to (c, c) (respectively (r, r)), comparing
entry j against entry i pairwise. -/
def validateInputRect (r c : ℕ) (M : ℕ → ℕ → ℚ) : Except MatrixErr Unit :=
  if r = c then validateInput r M
  else if r = 1 then
    (if ∀ i, i < c → ∀ j, j < c → |M 0 j - M 0 i| ≤ 1 / 10000000 then .ok ()
     else .error .asymmetric)
  else if c = 1 then
    (if ∀ i, i < r → ∀ j, j < r → |M i 0 - M j 0| ≤ 1 / 10000000 then .ok ()
     else .error .asymmetric)
  else .error .broadcastMismatch

/-- Claim C1: the source of UnitConverter.from_distance computes
energy = C6 / distance where its own docstring invariant requires
energy = C6 / distance ** 6, so construction raises the energy-distance
ValueError at C6 = 1, distance = 2: the factors are (2000, 1/2, 2) and
the validator sees 2 ** 6 * (1/2) = 32, not close to C6 = 1. The
repository test test_devices.py expects from_distance to succeed for
random positive distances. -/
theorem c1_fromDistance_raises :
    UnitConverter.fromDistance 1 2 = Except.error ConverterErr.energyDistance := by
  norm_num [UnitConverter.fromDistance, factorsFromDistance, UnitConverter.make,
    validateFactors, mathIsclose, Except.map]

/-- Claim C5 counterexample: the 1-by-1 square symmetric matrix with the
single entry -1 has a negative entry, yet validate_input accepts it: the
source checks only dimensionality and symmetry, never signs. -/
theorem c5_counterexample :
    (∀ i, i < 1 → ∀ j, j < 1 →
      (fun _ _ => (-1 : ℚ)) i j = (fun _ _ => (-1 : ℚ)) j i) ∧
    (fun _ _ => (-1 : ℚ)) 0 0 < 0 ∧
    validateInput 1 (fun _ _ => (-1 : ℚ)) = Except.ok () := by
  refine ⟨fun i _ j _ => rfl, by norm_num, ?_⟩
  rw [validateInput, if_pos]
  intro i _ j _
  norm_num

/-- Claim C5 amended: on a square matrix, validate_input accepts exactly
when every entry is within absolute tolerance 1e-7 of its transpose, and
raises the symmetry ValueError otherwise; on non-square input with both
dimensions above 1 it raises through the failed numpy broadcast in the
transpose comparison; it performs no negativity check, so every square
matrix symmetric within tolerance is accepted, negative entries included. -/
theorem c5_amended (r c n : ℕ) (M : ℕ → ℕ → ℚ) :
    (validateInput n M = Except.ok () ↔
      ∀ i j, i < n → j < n → |M i j - M j i| ≤ 1 / 10000000) ∧
    (¬ (∀ i j, i < n → j < n → |M i j - M j i| ≤ 1 / 10000000) →
      validateInput n M = Except.error MatrixErr.asymmetric) ∧
    validateInputRect n n M = validateInput n M ∧
    (r ≠ c → 1 < r → 1 < c →
      validateInputRect r c M = Except.error MatrixErr.broadcastMismatch) := by
  have hcond : (∀ i, i < n → ∀ j, j < n → |M i j - M j i| ≤ 1 / 10000000) ↔
      ∀ i j, i < n → j < n → |M i j - M j i| ≤ 1 / 10000000 :=
    ⟨fun h i j hi hj => h i hi j hj, fun h i hi j hj => h i j hi hj⟩
  refine ⟨?_, ?_, ?_, ?_⟩
  · rw [validateInput]
    by_cases h : ∀ i, i < n → ∀ j, j < n → |M i j - M j i| ≤ 1 / 10000000
    · rw [if_pos h]
      exact ⟨fun _ => hcond.mp h, fun _ => rfl⟩
    · rw [if_neg h]
      exact ⟨fun he => Except.noConfusion he, fun h2 => absurd (hcond.mpr h2) h⟩
  · intro h2
    rw [validateInput, if_neg fun h => h2 (hcond.mp h)]
  · rw [validateInputRect, if_pos rfl]
  · intro hrc hr hc
    rw [validateInputRect, if_neg hrc, if_neg (by omega), if_neg (by omega)]

/-- Witness for c5_amended: a 2-by-2 symmetric matrix with negative
off-diagonal entries is accepted, and a 2-by-3 array is rejected through
the failed broadcast. -/
theorem c5_witness :
    validateInput 2 (fun i j => if i = j then 0 else (-1 : ℚ)) = Except.ok () ∧
    validateInputRect 2 3 (fun _ _ => 0) = Except.error MatrixErr.broadcastMismatch :=
  ⟨(c5_amended 0 0 2 (fun i j => if i = j then 0 else (-1 : ℚ))).1.mpr
    (fun i j _ _ => by by_cases h : i = j <;> simp [h, eq_comm]),
   (c5_amended 2 3 0 (fun _ _ => 0)).2.2.2 (by norm_num) (by norm_num) (by norm_num)⟩

/-- Claim C9 counterexample: with C6 = 1 and current factors (1000, 1, 1),
setting the factors to (1000 + 1/2000000, 1, 1) gives a time-energy product
that is not within 1e-7 of 1000 (it is 5e-7 away), yet the setter does not
raise: the source validates with math.isclose, whose relative tolerance
1e-9 allows a deviation of about 1e-6 at magnitude 1000. -/
theorem c9_counterexample :
    ¬ (|(1000 + 1 / 2000000 : ℚ) * 1 - 1000| ≤ 1 / 10000000) ∧
    UnitConverter.setFactors ⟨1, 1000, 1, 1⟩ (1000 + 1 / 2000000, 1, 1) =
      Except.ok ⟨1, 1000 + 1 / 2000000, 1, 1⟩ := by
  constructor
  · have h : (1000 + 1 / 2000000 : ℚ) * 1 - 1000 = 1 / 2000000 := by norm_num
    rw [h, abs_of_pos (by norm_num)]
    norm_num
  · norm_num [UnitConverter.setFactors, validateFactors, mathIsclose, Except.map,
      abs_of_pos, abs_of_nonneg]

/-- Claim C9 amended: the factors setter raises exactly when the new triple
fails the math.isclose validation (relative tolerance 1e-9, not absolute
1e-7): time * energy not close to 1000, or distance ** 6 * energy not close
to C6; and when it raises, validation happened before any assignment, so
the previously stored factors are unchanged. -/
theorem c9_amended (u : UnitConverter) (v : ℚ × ℚ × ℚ) :
    ((∃ e, u.setFactors v = Except.error e) ↔
      (¬ mathIsclose (v.1 * v.2.1) 1000 ∨
       ¬ mathIsclose (v.2.2 ^ (6 : ℕ) * v.2.1) u.C6)) ∧
    ((∃ e, u.setFactors v = Except.error e) → u.applySetFactors v = u) := by
  constructor
  · rw [UnitConverter.setFactors, validateFactors]
    by_cases h1 : mathIsclose (v.1 * v.2.1) 1000
    · by_cases h2 : mathIsclose (v.2.2 ^ (6 : ℕ) * v.2.1) u.C6
      · rw [if_neg (not_not_intro h1), if_neg (not_not_intro h2)]
        constructor
        · rintro ⟨e, he⟩
          simp [Except.map] at he
        · rintro (h | h)
          · exact absurd h1 h
          · exact absurd h2 h
      · rw [if_neg (not_not_intro h1), if_pos h2]
        exact ⟨fun _ => Or.inr h2, fun _ => ⟨.energyDistance, rfl⟩⟩
    · rw [if_pos h1]
      exact ⟨fun _ => Or.inl h1, fun _ => ⟨.timeEnergy, rfl⟩⟩
  · rintro ⟨e, he⟩
    unfold UnitConverter.applySetFactors
    rw [he]

/-- Witness for c9_amended: at C6 = 1 with stored factors (1000, 1, 1) and
the violating triple (1, 1, 1), the caller-observed state is unchanged. -/
theorem c9_witness :
    UnitConverter.applySetFactors ⟨1, 1000, 1, 1⟩ (1, 1, 1) = ⟨1, 1000, 1, 1⟩ :=
  (c9_amended ⟨1, 1000, 1, 1⟩ (1, 1, 1)).2
    ((c9_amended ⟨1, 1000, 1, 1⟩ (1, 1, 1)).1.mpr
      (Or.inl (by norm_num [mathIsclose])))

/-- State of qoolqit.execution.unit_converter.UnitConverter: the stored
interaction coefficient (self._c6, taken from the device) and the three
conversion factors, over exact reals. -/
structure ExecConverter : Type where
  c6 : ℝ
  time : ℝ
  energy : ℝ
  distance : ℝ

/-- Model of set_energy_unit: energy = e, time = 1000 / energy,
distance = (c6 / energy) ** (1 / 6). -/
noncomputable def ExecConverter.setEnergyUnit (u : ExecConverter) (e : ℝ) : ExecConverter :=
  ⟨u.c6, 1000 / e, e, (u.c6 / e) ^ ((1 : ℝ) / 6)⟩

/-- Model of set_distance_unit: distance = d, energy = c6 / distance ** 6,
time = 1000 / energy. -/
noncomputable def ExecConverter.setDistanceUnit (u : ExecConverter) (d : ℝ) : ExecConverter :=
  ⟨u.c6, 1000 / (u.c6 / d ^ (6 : ℕ)), u.c6 / d ^ (6 : ℕ), d⟩

/-- Model of __post_init__: store the device interaction coefficient and
default to setting the reference energy (the device max amplitude, or
4 * pi when the device reports none; the model takes the chosen amplitude
as a parameter). -/
noncomputable def ExecConverter.ofDevice (c6 amp : ℝ) : ExecConverter :=
  ExecConverter.setEnergyUnit ⟨c6, 0, 0, 0⟩ amp

/-- Unit invariants of the specification for a converter state: the
time-energy product within 1e-7 of 1000 and the energy-distance product
within 1e-7 of the stored interaction coefficient. -/
def converterInvariants (u : ExecConverter) : Prop :=
  |u.time * u.energy - 1000| < 1 / 10000000 ∧
  |u.energy * u.distance ^ (6 : ℕ) - u.c6| < 1 / 10000000

/-- Claim C8: for every converter constructed from a device with positive
interaction coefficient and every positive input, both setters reestablish
the unit invariants within 1e-7 (in exact arithmetic they hold exactly). -/
theorem c8_setter_invariants (c6 amp e d : ℝ) (hc : 0 < c6) (he : 0 < e)
    (hd : 0 < d) :
    converterInvariants ((ExecConverter.ofDevice c6 amp).setEnergyUnit e) ∧
    converterInvariants ((ExecConverter.ofDevice c6 amp).setDistanceUnit d) := by
  have hc6 : ((ExecConverter.ofDevice c6 amp).c6) = c6 := rfl
  constructor
  · constructor
    · show |1000 / e * e - 1000| < 1 / 10000000
      rw [div_mul_cancel₀ _ (ne_of_gt he)]
      norm_num
    · show |e * (((ExecConverter.ofDevice c6 amp).c6 / e) ^ ((1 : ℝ) / 6)) ^ (6 : ℕ) -
        (ExecConverter.ofDevice c6 amp).c6| < 1 / 10000000
      rw [hc6]
      have h0 : (0 : ℝ) ≤ c6 / e := le_of_lt (div_pos hc he)
      have h6 : ((c6 / e) ^ ((1 : ℝ) / 6)) ^ (6 : ℕ) = c6 / e := by
        rw [← Real.rpow_natCast ((c6 / e) ^ ((1 : ℝ) / 6)) 6, ← Real.rpow_mul h0]
        norm_num
      rw [h6, mul_comm, div_mul_cancel₀ _ (ne_of_gt he)]
      norm_num
  · have hd6 : d ^ (6 : ℕ) ≠ 0 := pow_ne_zero _ (ne_of_gt hd)
    have hE : c6 / d ^ (6 : ℕ) ≠ 0 := div_ne_zero (ne_of_gt hc) hd6
    constructor
    · show |1000 / ((ExecConverter.ofDevice c6 amp).c6 / d ^ (6 : ℕ)) *
        ((ExecConverter.ofDevice c6 amp).c6 / d ^ (6 : ℕ)) - 1000| < 1 / 10000000
      rw [hc6, div_mul_cancel₀ _ hE]
      norm_num
    · show |(ExecConverter.ofDevice c6 amp).c6 / d ^ (6 : ℕ) * d ^ (6 : ℕ) -
        (ExecConverter.ofDevice c6 amp).c6| < 1 / 10000000
      rw [hc6, div_mul_cancel₀ _ hd6]
      norm_num

/-- Witness for c8_setter_invariants at C6 = 1, amplitude 1, energy 2,
distance 3. -/
theorem c8_witness :
    converterInvariants ((ExecConverter.ofDevice 1 1).setEnergyUnit 2) ∧
    converterInvariants ((ExecConverter.ofDevice 1 1).setDistanceUnit 3) :=
  c8_setter_invariants 1 1 2 3 (by norm_num) (by norm_num) (by norm_num)

/-- Model of qoolqit blade _helpers.normalized_interaction: 1 / dist ** 6. -/
noncomputable def normalizedInteraction (dist : ℝ) : ℝ :=
  1 / dist ^ (6 : ℕ)

/-- Model of qoolqit blade _helpers.normalized_best_dist: (1 / weight) ** (1 / 6). -/
noncomputable def normalizedBestDist (weight : ℝ) : ℝ :=
  (1 / weight) ^ ((1 : ℝ) / 6)

/-- Model of the target_distances intermediate of
compute_target_weights_by_dist_limit: normalized_best_dist applied to every
entry of the target weights, then np.fill_diagonal(.., 0). -/
noncomputable def targetDistances (W : ℕ → ℕ → ℝ) : ℕ → ℕ → ℝ :=
  fun i j => if i = j then 0 else normalizedBestDist (W i j)

/-- Model of the distances_to_walk intermediate:
(distance_matrix - target_distances) / 2 with the diagonal refilled with 0. -/
noncomputable def distancesToWalk (R W : ℕ → ℕ → ℝ) : ℕ → ℕ → ℝ :=
  fun i j => if i = j then 0 else (R i j - targetDistances W i j) / 2

/-- Model of the modulated_distances_to_walk intermediate:
np.minimum(max_distance_to_walk, np.maximum(-max_distance_to_walk, walk)). -/
noncomputable def modulatedDistancesToWalk (R W : ℕ → ℕ → ℝ) (maxWalk : ℝ) :
    ℕ → ℕ → ℝ :=
  fun i j => min maxWalk (max (-maxWalk) (distancesToWalk R W i j))

/-- Model of the modulated_target_distances intermediate:
distance_matrix - modulated_distances_to_walk * 2. -/
noncomputable def modulatedTargetDistances (R W : ℕ → ℕ → ℝ) (maxWalk : ℝ) :
    ℕ → ℕ → ℝ :=
  fun i j => R i j - modulatedDistancesToWalk R W maxWalk i j * 2

/-- Model of the rectified_modulated_target_distances intermediate: keep the
distance where the modulated walk is zero, otherwise take the max
(respectively min) of the modulated target and the target distance when the
walk is positive (respectively negative). -/
noncomputable def rectifiedModulatedTargetDistances (R W : ℕ → ℕ → ℝ) (maxWalk : ℝ) :
    ℕ → ℕ → ℝ :=
  fun i j =>
    if modulatedDistancesToWalk R W maxWalk i j = 0 then R i j
    else if modulatedDistancesToWalk R W maxWalk i j > 0 then
      max (modulatedTargetDistances R W maxWalk i j) (targetDistances W i j)
    else min (modulatedTargetDistances R W maxWalk i j) (targetDistances W i j)

/-- Result of compute_target_weights_by_dist_limit: normalized_interaction
applied to the rectified modulated target distances. -/
noncomputable def computeTargetWeightsByDistLimit (R W : ℕ → ℕ → ℝ) (maxWalk : ℝ) :
    ℕ → ℕ → ℝ :=
  fun i j => normalizedInteraction (rectifiedModulatedTargetDistances R W maxWalk i j)

/-- Clamping into a symmetric interval commutes between the two
compositions of min and max when the interval is nonempty. -/
theorem minMaxClampComm (b c w : ℝ) (hbc : b ≤ c) :
    min c (max b w) = max b (min c w) := by
  rcases le_total w b with h1 | h1 <;> rcases le_total w c with h2 | h2 <;>
    simp [min_def, max_def] <;> split_ifs <;> linarith

/-- Claim C4: for every off-diagonal pair and nonnegative walk cap, the
rectified modulated target distance is the distance where the clipped walk
is zero, the max of the modulated target R - 2 clip and the target distance
where the clip is positive, and their min where the clip is negative, with
clip the half-gap (R - Rstar) / 2 clipped into the interval from -max_walk
to max_walk and Rstar = (1 / W) ** (1 / 6). -/
theorem c4_rectified_distance_cases (R W : ℕ → ℕ → ℝ) (maxWalk : ℝ) (i j : ℕ)
    (hij : i ≠ j) (hmw : 0 ≤ maxWalk) :
    rectifiedModulatedTargetDistances R W maxWalk i j =
      (let Rstar := (1 / W i j) ^ ((1 : ℝ) / 6)
       let clip := max (-maxWalk) (min maxWalk ((R i j - Rstar) / 2))
       if clip = 0 then R i j
       else if 0 < clip then max (R i j - 2 * clip) Rstar
       else min (R i j - 2 * clip) Rstar) := by
  have hT : targetDistances W i j = (1 / W i j) ^ ((1 : ℝ) / 6) := by
    rw [targetDistances, if_neg hij, normalizedBestDist]
  have hclip : modulatedDistancesToWalk R W maxWalk i j =
      max (-maxWalk) (min maxWalk ((R i j - (1 / W i j) ^ ((1 : ℝ) / 6)) / 2)) := by
    rw [modulatedDistancesToWalk, distancesToWalk, if_neg hij, hT]
    exact minMaxClampComm (-maxWalk) maxWalk _ (le_trans (neg_nonpos_of_nonneg hmw) hmw)
  have hmod : modulatedTargetDistances R W maxWalk i j =
      R i j - 2 * modulatedDistancesToWalk R W maxWalk i j := by
    rw [modulatedTargetDistances]; ring
  rw [rectifiedModulatedTargetDistances, hmod, hT, hclip]

/-- Witness for c4_rectified_distance_cases at the constant matrices
R = W = 1, walk cap 1, pair (0, 1). -/
theorem c4_witness :
    rectifiedModulatedTargetDistances (fun _ _ => 1) (fun _ _ => 1) 1 0 1 =
      (let Rstar := ((1 : ℝ) / 1) ^ ((1 : ℝ) / 6)
       let clip := max (-1) (min 1 ((1 - Rstar) / 2))
       if clip = 0 then 1
       else if 0 < clip then max (1 - 2 * clip) Rstar
       else min (1 - 2 * clip) Rstar) :=
  c4_rectified_distance_cases (fun _ _ => 1) (fun _ _ => 1) 1 0 1
    (by decide) (by norm_num)

/-- Model of the weight_differences intermediate of
compute_target_weights_distances_by_weight_diff_limit:
target_weights - current_weights with the diagonal zeroed. -/
noncomputable def weightDifferences (tw cw : ℕ → ℕ → ℝ) : ℕ → ℕ → ℝ :=
  fun i j => if i = j then 0 else tw i j - cw i j

/-- Model of np.max(np.abs(.)) over an n-by-n array, as a fold of max over
the row-major entries; the base 0 coincides with the true maximum because
the absolute values are nonnegative (numpy rejects the empty case). -/
noncomputable def maxAbsEntry (n : ℕ) (f : ℕ → ℕ → ℝ) : ℝ :=
  (((List.range n).flatMap fun i => (List.range n).map fun j => |f i j|).foldr max 0)

/-- Model of the inner helper compute_reduced_weight:
(1 - np.sin((1 - x) * np.pi / 2)) * np.sign(x). -/
noncomputable def computeReducedWeight (x : ℝ) : ℝ :=
  (1 - Real.sin ((1 - x) * Real.pi / 2)) * Real.sign x

/-- Model of the np.where reassignment of weight_differences: entries whose
absolute value is below the threshold np.max(np.abs(wd)) * theta are
replaced by the reduced weight, the others kept. -/
noncomputable def limitedWeightDifferences (n : ℕ) (tw cw : ℕ → ℕ → ℝ) (θ : ℝ) :
    ℕ → ℕ → ℝ :=
  fun i j =>
    if |weightDifferences tw cw i j| < maxAbsEntry n (weightDifferences tw cw) * θ
    then computeReducedWeight (weightDifferences tw cw i j)
    else weightDifferences tw cw i j

/-- Model of the step_target_weights intermediate:
current_weights + weight_differences * (1 - weight_relative_threshold). -/
noncomputable def stepTargetWeights (n : ℕ) (tw cw : ℕ → ℕ → ℝ) (θ : ℝ) :
    ℕ → ℕ → ℝ :=
  fun i j => cw i j + limitedWeightDifferences n tw cw θ i j * (1 - θ)

/-- Result of compute_target_weights_distances_by_weight_diff_limit: the
weighted vectors (limited differences times the unitary vectors) and the
distances to walk (half the gap between the distance matrix and the step
target distances). -/
noncomputable def computeTargetWeightsDistancesByWeightDiffLimit (n : ℕ)
    (R : ℕ → ℕ → ℝ) (U : ℕ → ℕ → ℕ → ℝ) (tw cw : ℕ → ℕ → ℝ) (θ : ℝ) :
    (ℕ → ℕ → ℕ → ℝ) × (ℕ → ℕ → ℝ) :=
  (fun i j k => limitedWeightDifferences n tw cw θ i j * U i j k,
   fun i j => (R i j - normalizedBestDist (stepTargetWeights n tw cw θ i j)) / 2)

/-- Test fixture for claim C3: 2-by-2 target weights with off-diagonal 1. -/
noncomputable def twC3 : ℕ → ℕ → ℝ :=
  fun i j => if i = j then 0 else 1

/-- Test fixture for claim C3: zero current weights. -/
noncomputable def cwC3 : ℕ → ℕ → ℝ :=
  fun _ _ => 0

/-- Evaluation of the weight difference of the C3 fixture at the pair (0, 1). -/
theorem twC3_wd : weightDifferences twC3 cwC3 0 1 = 1 := by
  simp [weightDifferences, twC3, cwC3]

/-- Evaluation of the maximal absolute weight difference of the C3 fixture. -/
theorem twC3_max : maxAbsEntry 2 (weightDifferences twC3 cwC3) = 1 := by
  have h0 : weightDifferences twC3 cwC3 0 0 = 0 := by simp [weightDifferences]
  have h1 : weightDifferences twC3 cwC3 1 1 = 0 := by simp [weightDifferences]
  have h2 : weightDifferences twC3 cwC3 1 0 = 1 := by
    simp [weightDifferences, twC3, cwC3]
  rw [maxAbsEntry, show List.range 2 = [0, 1] by rfl]
  simp [twC3_wd, h0, h1, h2]

/-- Absolute-value form of the reduced weight: since
sin(pi/2 + t) = cos t = sin(pi/2 - t), replacing x by abs x inside the sine
does not change the product with sign x. -/
theorem reducedWeightAbs (x : ℝ) :
    computeReducedWeight x =
      (1 - Real.sin ((1 - |x|) * Real.pi / 2)) * Real.sign x := by
  rcases lt_trichotomy x 0 with hx | hx | hx
  · rw [computeReducedWeight, abs_of_neg hx]
    have h1 : (1 - x) * Real.pi / 2 = -x * (Real.pi / 2) + Real.pi / 2 := by ring
    have h2 : (1 - -x) * Real.pi / 2 = Real.pi / 2 - -x * (Real.pi / 2) := by ring
    rw [h1, h2, Real.sin_add_pi_div_two, Real.sin_pi_div_two_sub]
  · rw [hx]
    simp [computeReducedWeight, Real.sign_zero]
  · rw [computeReducedWeight, abs_of_pos hx]

/-- Claim C3 counterexample: on the C3 fixture with threshold theta = 2, the
pair (0, 1) has weight difference 1, below the threshold tau = 2, and the
code replaces it by (1 - sin((1 - 1) pi/2)) * sign(1) = 1, while the claimed
replacement s(x) = (1 - sin((1 - abs(x / tau)) pi/2)) * sign(x) * tau equals
2 - sqrt 2; the code applies no normalization by tau. -/
theorem c3_counterexample :
    |weightDifferences twC3 cwC3 0 1| <
      maxAbsEntry 2 (weightDifferences twC3 cwC3) * 2 ∧
    limitedWeightDifferences 2 twC3 cwC3 2 0 1 ≠
      (1 - Real.sin ((1 - |weightDifferences twC3 cwC3 0 1 /
          (maxAbsEntry 2 (weightDifferences twC3 cwC3) * 2)|) * Real.pi / 2)) *
        Real.sign (weightDifferences twC3 cwC3 0 1) *
        (maxAbsEntry 2 (weightDifferences twC3 cwC3) * 2) := by
  have hlt : |weightDifferences twC3 cwC3 0 1| <
      maxAbsEntry 2 (weightDifferences twC3 cwC3) * 2 := by
    rw [twC3_wd, twC3_max]
    norm_num
  refine ⟨hlt, ?_⟩
  rw [limitedWeightDifferences, if_pos hlt, twC3_wd, twC3_max, computeReducedWeight]
  have h1 : ((1 : ℝ) - 1) * Real.pi / 2 = 0 := by ring
  have h2 : ((1 : ℝ) - |1 / (1 * 2)|) * Real.pi / 2 = Real.pi / 4 := by
    rw [abs_of_pos (by norm_num : (0 : ℝ) < 1 / (1 * 2))]
    ring
  rw [h1, h2, Real.sin_zero, Real.sin_pi_div_four, Real.sign_one]
  intro h
  have hs : Real.sqrt 2 = 1 := by linarith
  have h4 : Real.sqrt 2 ^ 2 = 2 := Real.sq_sqrt (by norm_num)
  rw [hs] at h4
  norm_num at h4

/-- Claim C3 amended: pairs whose absolute weight difference is below the
threshold tau = max abs difference times theta are replaced by
(1 - sin((1 - abs dW) pi/2)) * sign dW, i.e. the spec formula with the
normalization and scaling by tau removed; pairs at or above tau are kept. -/
theorem c3_amended (n : ℕ) (tw cw : ℕ → ℕ → ℝ) (θ : ℝ) (i j : ℕ) :
    (|weightDifferences tw cw i j| < maxAbsEntry n (weightDifferences tw cw) * θ →
      limitedWeightDifferences n tw cw θ i j =
        (1 - Real.sin ((1 - |weightDifferences tw cw i j|) * Real.pi / 2)) *
          Real.sign (weightDifferences tw cw i j)) ∧
    (maxAbsEntry n (weightDifferences tw cw) * θ ≤ |weightDifferences tw cw i j| →
      limitedWeightDifferences n tw cw θ i j = weightDifferences tw cw i j) := by
  constructor
  · intro h
    rw [limitedWeightDifferences, if_pos h, reducedWeightAbs]
  · intro h
    rw [limitedWeightDifferences, if_neg (not_lt.mpr h)]

/-- Witness for c3_amended on the C3 fixture at the pair (0, 1). -/
theorem c3_witness :
    limitedWeightDifferences 2 twC3 cwC3 2 0 1 =
      (1 - Real.sin ((1 - |weightDifferences twC3 cwC3 0 1|) * Real.pi / 2)) *
        Real.sign (weightDifferences twC3 cwC3 0 1) :=
  (c3_amended 2 twC3 cwC3 2 0 1).1 (by rw [twC3_wd, twC3_max]; norm_num)

/-- Row-major list of the strict upper triangle of an n-by-n matrix,
matching indexing by np.triu_indices_from(..., k=1). -/
noncomputable def triuList (n : ℕ) (M : ℕ → ℕ → ℝ) : List ℝ :=
  (List.range n).flatMap fun i =>
    ((List.range n).filter fun j => decide (i < j)).map fun j => M i j

/-- Model of np.percentile with the default linear interpolation method: on
the sorted data, the virtual index is p / 100 * (len - 1); the result
interpolates between the entries at its floor and the next position. -/
noncomputable def percentileLinear (l : List ℝ) (p : ℝ) : ℝ :=
  let s := l.mergeSort fun a b => decide (a ≤ b)
  let h := p / 100 * ((l.length : ℝ) - 1)
  let i := (Int.floor h).toNat
  let a := s.getD i 0
  a + (h - (i : ℝ)) * (s.getD (i + 1) a - a)

/-- Model of the differences intermediate of compute_best_scaling_for_qubo:
embedded_interactions_triu - target_interactions_triu. -/
noncomputable def differencesTriu (tT eT : List ℝ) : List ℝ :=
  List.zipWith (fun e t => e - t) eT tT

/-- Model of the percent intermediate: 100 - 2 / (len(target) - 1) * 10. -/
noncomputable def scalingPercent (n : ℕ) : ℝ :=
  100 - 2 / ((n : ℝ) - 1) * 10

/-- Model of the difference_ceiling intermediate:
np.maximum(0.0, np.percentile(differences, percent)). -/
noncomputable def differenceCeiling (tT eT : List ℝ) (n : ℕ) : ℝ :=
  max 0 (percentileLinear (differencesTriu tT eT) (scalingPercent n))

/-- Model of the filtered embedded interactions (filter_differences=True):
np.where(differences == np.minimum(differences, ceiling), embedded,
target + np.minimum(differences, ceiling)). -/
noncomputable def filteredEmbeddedTriu (tT eT : List ℝ) (n : ℕ) : List ℝ :=
  List.zipWith (fun e t =>
    if e - t = min (e - t) (differenceCeiling tT eT n) then e
    else t + min (e - t) (differenceCeiling tT eT n)) eT tT

/-- Model of compute_best_scaling_for_qubo on the strict upper triangles of
the n-by-n target and embedded interaction matrices:
(sum(filtered ** 2) / sum(filtered * target)) ** (1 / 6). -/
noncomputable def computeBestScalingForQubo (W I : ℕ → ℕ → ℝ) (n : ℕ) : ℝ :=
  (((filteredEmbeddedTriu (triuList n W) (triuList n I) n).map
      fun x => x ^ (2 : ℕ)).sum /
    (List.zipWith (fun x t => x * t)
      (filteredEmbeddedTriu (triuList n W) (triuList n I) n) (triuList n W)).sum) ^
    ((1 : ℝ) / 6)

/-- Percent as worded by the specification: p = 100 - 20 / (n - 1). -/
noncomputable def specScalingPercent (n : ℕ) : ℝ :=
  100 - 20 / ((n : ℝ) - 1)

/-- Ceiling as worded by the specification: max(0, p-th percentile of the
differences). -/
noncomputable def specCeiling (tT eT : List ℝ) (n : ℕ) : ℝ :=
  max 0 (percentileLinear (differencesTriu tT eT) (specScalingPercent n))

/-- Outlier filtering as worded by the specification: every embedded entry
whose difference exceeds the ceiling is replaced by target + ceiling, all
others are kept unchanged. -/
noncomputable def specFilteredTriu (tT eT : List ℝ) (n : ℕ) : List ℝ :=
  List.zipWith (fun e t =>
    if specCeiling tT eT n < e - t then t + specCeiling tT eT n else e) eT tT

/-- Scale factor as worded by the specification:
(sum of filtered squares over sum of filtered times target) ** (1 / 6). -/
noncomputable def specBestScaling (W I : ℕ → ℕ → ℝ) (n : ℕ) : ℝ :=
  (((specFilteredTriu (triuList n W) (triuList n I) n).map
      fun x => x ^ (2 : ℕ)).sum /
    (List.zipWith (fun x t => x * t)
      (specFilteredTriu (triuList n W) (triuList n I) n) (triuList n W)).sum) ^
    ((1 : ℝ) / 6)

/-- Pointwise congruence for zipWith over the same pair of lists. -/
theorem zipWithCongr {α β γ : Type} (f g : α → β → γ) (l1 : List α) (l2 : List β)
    (h : ∀ a b, f a b = g a b) : List.zipWith f l1 l2 = List.zipWith g l1 l2 := by
  induction l1 generalizing l2 with
  | nil => rfl
  | cons a t ih =>
    cases l2 with
    | nil => rfl
    | cons b t2 => simp only [List.zipWith_cons_cons, h, ih]

/-- Equality of the two percent formulas: 100 - 2 / (n - 1) * 10 equals
100 - 20 / (n - 1). -/
theorem scalingPercentEq (n : ℕ) : scalingPercent n = specScalingPercent n := by
  rw [scalingPercent, specScalingPercent]
  ring

/-- Equality of the code ceiling and the specification ceiling. -/
theorem ceilingEq (tT eT : List ℝ) (n : ℕ) :
    differenceCeiling tT eT n = specCeiling tT eT n := by
  rw [differenceCeiling, specCeiling, scalingPercentEq]

/-- Equality of the code filtering (min plus equality test) and the
specification filtering (threshold test). -/
theorem filteredEq (tT eT : List ℝ) (n : ℕ) :
    filteredEmbeddedTriu tT eT n = specFilteredTriu tT eT n := by
  rw [filteredEmbeddedTriu, specFilteredTriu]
  refine zipWithCongr _ _ _ _ fun e t => ?_
  rcases le_or_lt (e - t) (differenceCeiling tT eT n) with h | h
  · rw [if_pos (min_eq_left h).symm, if_neg (by rw [← ceilingEq]; exact not_lt.mpr h)]
  · rw [min_eq_right (le_of_lt h), if_neg (ne_of_gt h), ceilingEq,
      if_pos (by rw [← ceilingEq]; exact h)]

/-- Claim C2: the scale factor returned by compute_best_scaling_for_qubo
equals the specification formula: the sixth root of the ratio of the sum of
squared filtered interactions to the sum of filtered times target, with the
outlier filtering, ceiling and percentile exactly as worded. -/
theorem c2_best_scaling_matches_spec (n : ℕ) (W I : ℕ → ℕ → ℝ) (hn : 2 ≤ n) :
    computeBestScalingForQubo W I n = specBestScaling W I n := by
  rw [computeBestScalingForQubo, specBestScaling, filteredEq]

/-- Witness for c2_best_scaling_matches_spec at n = 2 with the constant
matrices W = I = 1. -/
theorem c2_witness :
    computeBestScalingForQubo (fun _ _ => 1) (fun _ _ => 1) 2 =
      specBestScaling (fun _ _ => 1) (fun _ _ => 1) 2 :=
  c2_best_scaling_matches_spec 2 (fun _ _ => 1) (fun _ _ => 1) (by norm_num)

/-- The differences of a list with itself are all zero. -/
theorem zipWithSubSelf (l : List ℝ) :
    List.zipWith (fun e t => e - t) l l = List.replicate l.length 0 := by
  induction l with
  | nil => rfl
  | cons a t ih => simp [List.replicate_succ, ih]

/-- getD returns zero on a list whose members are all zero. -/
theorem getDZeroOfAllZero (s : List ℝ) (k : ℕ) (h : ∀ x ∈ s, x = 0) :
    s.getD k 0 = 0 := by
  induction s generalizing k with
  | nil => rfl
  | cons a t ih =>
    cases k with
    | zero => exact h a (List.mem_cons_self a t)
    | succ k => exact ih k fun x hx => h x (List.mem_cons_of_mem a hx)

/-- The linear-interpolation percentile of an all-zero sample is zero. -/
theorem percentileReplicateZero (m : ℕ) (p : ℝ) :
    percentileLinear (List.replicate m 0) p = 0 := by
  have hall : ∀ x ∈ (List.replicate m (0 : ℝ)).mergeSort fun a b => decide (a ≤ b),
      x = 0 := by
    intro x hx
    exact List.eq_of_mem_replicate
      ((List.mergeSort_perm (List.replicate m 0) _).mem_iff.mp hx)
  rw [percentileLinear]
  simp only [getDZeroOfAllZero _ _ hall]
  ring

/-- Multiplying a list pointwise with itself is squaring it. -/
theorem zipWithMulSelf (l : List ℝ) :
    List.zipWith (fun x t => x * t) l l = l.map fun x => x ^ (2 : ℕ) := by
  induction l with
  | nil => rfl
  | cons a t ih => simp [ih, pow_two]

/-- The strict-upper-triangle entry at an increasing index pair belongs to
the row-major triangle list. -/
theorem memTriuList (n : ℕ) (M : ℕ → ℕ → ℝ) (i j : ℕ) (hij : i < j) (hj : j < n) :
    M i j ∈ triuList n M := by
  rw [triuList]
  refine List.mem_flatMap.mpr ⟨i, List.mem_range.mpr (lt_trans hij hj), ?_⟩
  refine List.mem_map.mpr ⟨j, List.mem_filter.mpr ⟨List.mem_range.mpr hj, ?_⟩, rfl⟩
  exact decide_eq_true hij

/-- A list containing a nonzero member has positive sum of squares. -/
theorem sumSqPos (l : List ℝ) (x : ℝ) (hx : x ∈ l) (hx0 : x ≠ 0) :
    0 < (l.map fun y => y ^ (2 : ℕ)).sum := by
  have hxx : (0 : ℝ) < x ^ (2 : ℕ) := by
    have h := pow_pos (abs_pos.mpr hx0) 2
    rwa [sq_abs] at h
  refine lt_of_lt_of_le hxx ?_
  exact List.single_le_sum (fun y hy => by
    rcases List.mem_map.mp hy with ⟨z, _, rfl⟩
    exact sq_nonneg z) _ (List.mem_map_of_mem (fun y => y ^ (2 : ℕ)) hx)

/-- The self-filtered list equals the original: all differences are zero,
the ceiling is zero, and the where-condition holds everywhere. -/
theorem filteredSelf (l : List ℝ) (c : ℝ) (hc : c = 0) :
    List.zipWith (fun e t =>
      if e - t = min (e - t) c then e else t + min (e - t) c) l l = l := by
  subst hc
  induction l with
  | nil => rfl
  | cons a t ih =>
    simp only [List.zipWith_cons_cons, ih]
    rw [if_pos]
    rw [sub_self, min_self]

/-- Idempotence core: on identical target and embedded triangle lists with
a nonzero entry, the filtering keeps the list and the ratio is one. -/
theorem ratioSelfOne (n : ℕ) (W : ℕ → ℕ → ℝ) (x : ℝ) (hx : x ∈ triuList n W)
    (hx0 : x ≠ 0) :
    computeBestScalingForQubo W W n = 1 := by
  have hceil : differenceCeiling (triuList n W) (triuList n W) n = 0 := by
    rw [differenceCeiling, differencesTriu, zipWithSubSelf, percentileReplicateZero]
    exact max_eq_left (le_refl 0)
  have hfilt : filteredEmbeddedTriu (triuList n W) (triuList n W) n = triuList n W := by
    rw [filteredEmbeddedTriu, hceil]
    exact filteredSelf _ _ rfl
  rw [computeBestScalingForQubo, hfilt, zipWithMulSelf,
    div_self (ne_of_gt (sumSqPos _ x hx hx0)), Real.one_rpow]

/-- Claim C7: for every n-by-n matrix with n at least 2 and some strictly
positive strict-upper-triangle entry, calling compute_best_scaling_for_qubo
with the embedded interactions equal to the targets yields a scale factor
within 1e-6 of 1 (it is exactly 1 in exact arithmetic). -/
theorem c7_scaling_idempotent (n : ℕ) (W : ℕ → ℕ → ℝ) (hn : 2 ≤ n)
    (hpos : ∃ i j, i < j ∧ j < n ∧ 0 < W i j) :
    |computeBestScalingForQubo W W n - 1| < 1 / 1000000 := by
  rcases hpos with ⟨i, j, hij, hj, hW⟩
  rw [ratioSelfOne n W (W i j) (memTriuList n W i j hij hj) (ne_of_gt hW)]
  norm_num

/-- Witness for c7_scaling_idempotent at the constant 2-by-2 matrix 1. -/
theorem c7_witness :
    |computeBestScalingForQubo (fun _ _ => 1) (fun _ _ => 1) 2 - 1| < 1 / 1000000 :=
  c7_scaling_idempotent 2 (fun _ _ => 1) (by norm_num)
    ⟨0, 1, by norm_num, by norm_num, by norm_num⟩

/-- Model of _helpers.distance_matrix_from_positions for n points with d
coordinates: entry (i, j) is the Euclidean norm of positions[j] -
positions[i]. -/
noncomputable def distanceMatrixFromPositions (P : ℕ → ℕ → ℝ) (d : ℕ) :
    ℕ → ℕ → ℝ :=
  fun i j => Real.sqrt (((List.range d).map fun k => (P j k - P i k) ^ (2 : ℕ)).sum)

/-- Model of the current_weights intermediate of compute_best_scaling_for_pos:
normalized_interaction applied to every entry of the distance matrix, then
np.triu(.., k=1). -/
noncomputable def currentWeightsFromPositions (P : ℕ → ℕ → ℝ) (d : ℕ) :
    ℕ → ℕ → ℝ :=
  fun i j =>
    if i < j then normalizedInteraction (distanceMatrixFromPositions P d i j) else 0

/-- Model of compute_best_scaling_for_pos on an n-by-n target with positions
of dimension d. -/
noncomputable def computeBestScalingForPos (W : ℕ → ℕ → ℝ) (n : ℕ)
    (P : ℕ → ℕ → ℝ) (d : ℕ) : ℝ :=
  computeBestScalingForQubo W (currentWeightsFromPositions P d) n

/-- State of DistancesConstraintsCalculator. The source field names are
target_interactions, starting_min, starting_ratio, final_ratio and
current_min; the ratio fields are named with Rho here. -/
structure DistancesCalc : Type where
  targetInteractions : ℕ → ℕ → ℝ
  n : ℕ
  startMin : Option ℝ
  startRho : Option ℝ
  finalRho : Option ℝ
  currentMin : Option ℝ

/-- Model of __post_init__: when final_ratio is set, current_min is
initialized from starting_min (which the source asserts to be present);
when final_ratio is None, both starting_ratio and current_min are forced
to None. -/
def mkDistancesCalc (target : ℕ → ℕ → ℝ) (n : ℕ)
    (startMin startRho finalRho : Option ℝ) : DistancesCalc :=
  match finalRho with
  | some r => ⟨target, n, startMin, startRho, some r, startMin⟩
  | none => ⟨target, n, startMin, none, none, none⟩

/-- Model of compute_scaling_min_max: compute the scale factor from the
positions; when final_ratio is None return it with two Nones and leave the
state unchanged; otherwise compute the step ratio
final + (1 - cursor) * (starting - final), scale the stored minimum by the
factor, store it back, and return (factor, scaled_min, scaled_min * ratio).
The source asserts 0 <= step_cursor <= 1 and starting_ratio is not None;
the model reads the optional fields with default 0 on the asserted paths. -/
noncomputable def computeScalingMinMax (c : DistancesCalc) (P : ℕ → ℕ → ℝ)
    (d : ℕ) (u : ℝ) : (ℝ × Option ℝ × Option ℝ) × DistancesCalc :=
  match c.finalRho with
  | none => ((computeBestScalingForPos c.targetInteractions c.n P d, none, none), c)
  | some rhoF =>
      ((computeBestScalingForPos c.targetInteractions c.n P d,
        some (c.currentMin.getD 0 * computeBestScalingForPos c.targetInteractions c.n P d),
        some (c.currentMin.getD 0 * computeBestScalingForPos c.targetInteractions c.n P d *
          (rhoF + (1 - u) * (c.startRho.getD 0 - rhoF)))),
       { c with currentMin := some (c.currentMin.getD 0 * computeBestScalingForPos c.targetInteractions c.n P d) })

/-- Claim C6: with a configured band (final_ratio present, stored current
minimum m positive) and cursor u in the unit interval, the call returns the
scale factor alpha, s_min = alpha * m, and s_max = s_min * (rho_f +
(1 - u) * (rho_0 - rho_f)), storing s_min as the new current minimum; and
with final_ratio None the constructor forces starting_ratio to None and the
call returns (alpha, None, None) leaving the state unchanged. -/
theorem c6_scaling_min_max :
    (∀ (c : DistancesCalc) (P : ℕ → ℕ → ℝ) (d : ℕ) (u rho0 rhoF m : ℝ),
      c.finalRho = some rhoF → c.startRho = some rho0 → c.currentMin = some m →
      0 ≤ u → u ≤ 1 → 0 < m →
      computeScalingMinMax c P d u =
        ((computeBestScalingForPos c.targetInteractions c.n P d,
          some (computeBestScalingForPos c.targetInteractions c.n P d * m),
          some (computeBestScalingForPos c.targetInteractions c.n P d * m *
            (rhoF + (1 - u) * (rho0 - rhoF)))),
         { c with currentMin := some (computeBestScalingForPos c.targetInteractions c.n P d * m) })) ∧
    (∀ (target : ℕ → ℕ → ℝ) (n : ℕ) (startMin startRho : Option ℝ),
      (mkDistancesCalc target n startMin startRho none).startRho = none) ∧
    (∀ (c : DistancesCalc) (P : ℕ → ℕ → ℝ) (d : ℕ) (u : ℝ),
      c.finalRho = none →
      computeScalingMinMax c P d u =
        ((computeBestScalingForPos c.targetInteractions c.n P d, none, none), c)) := by
  refine ⟨?_, ?_, ?_⟩
  · intro c P d u rho0 rhoF m h1 h2 h3 hu0 hu1 hm
    rw [computeScalingMinMax, h1, h2, h3]
    simp only [Option.getD_some]
    rw [mul_comm m (computeBestScalingForPos c.targetInteractions c.n P d)]
  · intro target n startMin startRho
    rfl
  · intro c P d u h
    rw [computeScalingMinMax, h]

/-- Fixture calculator for the C6 witness: constant target, band configured
with starting_min 1, starting_ratio 2, final_ratio 1. -/
noncomputable def calcC6 : DistancesCalc :=
  mkDistancesCalc (fun _ _ => 1) 2 (some 1) (some 2) (some 1)

/-- Witness for c6_scaling_min_max on the fixture calculator at cursor 0. -/
theorem c6_witness :
    computeScalingMinMax calcC6 (fun _ _ => 0) 2 0 =
      ((computeBestScalingForPos calcC6.targetInteractions calcC6.n (fun _ _ => 0) 2,
        some (computeBestScalingForPos calcC6.targetInteractions calcC6.n (fun _ _ => 0) 2 * 1),
        some (computeBestScalingForPos calcC6.targetInteractions calcC6.n (fun _ _ => 0) 2 * 1 *
          (1 + (1 - 0) * (2 - 1)))),
       { calcC6 with currentMin := some (computeBestScalingForPos calcC6.targetInteractions calcC6.n (fun _ _ => 0) 2 * 1) }) :=
  c6_scaling_min_max.1 calcC6 (fun _ _ => 0) 2 0 2 1 1 rfl rfl rfl
    (by norm_num) (by norm_num) (by norm_num)

/-- Model of np.allclose with its default tolerances rtol = 1e-5 and
atol = 1e-8 over the n-by-n region: abs(a - b) <= atol + rtol * abs(b)
elementwise. -/
def npAllclose (n : ℕ) (A B : ℕ → ℕ → ℚ) : Prop :=
  ∀ i, i < n → ∀ j, j < n →
    |A i j - B i j| ≤ 1 / 100000000 + (1 / 100000) * |B i j|

instance npAllclose.dec (n : ℕ) (A B : ℕ → ℕ → ℚ) : Decidable (npAllclose n A B) :=
  inferInstanceAs (Decidable (∀ i, i < n → ∀ j, j < n →
    |A i j - B i j| ≤ 1 / 100000000 + (1 / 100000) * |B i j|))

/-- Transpose of a matrix given as a function. -/
def trQ (A : ℕ → ℕ → ℚ) : ℕ → ℕ → ℚ :=
  fun i j => A j i

/-- Model of np.triu with k = 0: keep entries on or above the diagonal. -/
def triuQ (A : ℕ → ℕ → ℚ) : ℕ → ℕ → ℚ :=
  fun i j => if i ≤ j then A i j else 0

/-- Model of np.tril with k = 0: keep entries on or below the diagonal. -/
def trilQ (A : ℕ → ℕ → ℚ) : ℕ → ℕ → ℚ :=
  fun i j => if j ≤ i then A i j else 0

/-- Model of _qubo_mapper.tri_lower_to_upper: when the matrix is allclose to
its lower triangle, symmetrize it as matrix + matrix.T - diag(diag(matrix)). -/
def triLowerToUpper (n : ℕ) (A : ℕ → ℕ → ℚ) : ℕ → ℕ → ℚ :=
  if npAllclose n A (trilQ A)
  then fun i j => A i j + A j i - (if i = j then A i i else 0)
  else A

/-- Normalization step of Qubo.from_matrix: tri_lower_to_upper, then np.triu
when the result is allclose to its transpose (to avoid duplicate terms). -/
def fromMatrixNormalized (n : ℕ) (M : ℕ → ℕ → ℚ) : ℕ → ℕ → ℚ :=
  if npAllclose n (triLowerToUpper n M) (trQ (triLowerToUpper n M))
  then triuQ (triLowerToUpper n M)
  else triLowerToUpper n M

/-- Model of the Qubo container: parallel lists of terms (index pairs; node
ids are the integer row and column indices that from_matrix produces) and
coefficients. -/
structure Qubo : Type where
  terms : List (ℕ × ℕ)
  coeffs : List ℚ

/-- Row-major list of the nonzero entries of the normalized matrix produced
by the double loop of Qubo.from_matrix, paired with the coefficients. -/
def quboPairs (n : ℕ) (M : ℕ → ℕ → ℚ) : List ((ℕ × ℕ) × ℚ) :=
  (List.range n).flatMap fun i =>
    ((List.range n).filter fun j => decide (fromMatrixNormalized n M i j ≠ 0)).map
      fun j => ((i, j), fromMatrixNormalized n M i j)

/-- Model of the staticmethod Qubo.from_matrix: validity check (square by
the model type; symmetric or triangular up to np.allclose), normalization,
then term and coefficient collection over all nonzero entries. -/
def Qubo.fromMatrix (n : ℕ) (M : ℕ → ℕ → ℚ) : Except Unit Qubo :=
  if npAllclose n M (trQ M) ∨ npAllclose n M (triuQ M) ∨ npAllclose n M (trilQ M)
  then .ok ⟨(quboPairs n M).map Prod.fst, (quboPairs n M).map Prod.snd⟩
  else .error ()

/-- Model of Qubo.nodes: the node ids appearing in the terms, deduplicated
and sorted ascending (all ids are integers here). -/
def Qubo.nodes (q : Qubo) : List ℕ :=
  ((q.terms.map Prod.fst ++ q.terms.map Prod.snd).dedup).mergeSort
    fun a b => decide (a ≤ b)

/-- Model of Qubo.as_matrix: a square zero matrix of size len(nodes), with
value added at (min position, max position) for every term, then np.triu. -/
def Qubo.asMatrix (q : Qubo) : ℕ × (ℕ → ℕ → ℚ) :=
  (q.nodes.length,
   triuQ ((q.terms.zip q.coeffs).foldl (fun acc tc => fun i j =>
     if i = min (q.nodes.indexOf tc.1.1) (q.nodes.indexOf tc.1.2) ∧
        j = max (q.nodes.indexOf tc.1.1) (q.nodes.indexOf tc.1.2)
     then acc i j + tc.2 else acc i j) fun _ _ => 0))

/-- Row-major list of the nonzero entries of an exactly upper-triangular
matrix, the value quboPairs reduces to on such matrices. -/
def utPairs (n : ℕ) (M : ℕ → ℕ → ℚ) : List ((ℕ × ℕ) × ℚ) :=
  (List.range n).flatMap fun i =>
    ((List.range n).filter fun j => decide (M i j ≠ 0)).map
      fun j => ((i, j), M i j)

/-- Pointwise congruence for flatMap. -/
theorem flatMapCongr {α β : Type} (l : List α) (f g : α → List β)
    (h : ∀ a ∈ l, f a = g a) : l.flatMap f = l.flatMap g := by
  induction l with
  | nil => rfl
  | cons a t ih =>
    simp only [List.flatMap_cons]
    rw [h a (List.mem_cons_self a t), ih fun x hx => h x (List.mem_cons_of_mem a hx)]

/-- On an exactly upper-triangular matrix the from_matrix normalization is
the identity on the n-by-n region: either the lower-triangle allclose test
fails and then so does the symmetry test, or both succeed and symmetrizing
then taking np.triu restores the matrix. -/
theorem normalizedEqUT (n : ℕ) (M : ℕ → ℕ → ℚ)
    (hUT : ∀ i j, i < n → j < n → j < i → M i j = 0) :
    ∀ i j, i < n → j < n → fromMatrixNormalized n M i j = M i j := by
  intro i j hi hj
  by_cases hA : npAllclose n M (trilQ M)
  · have hTLU : triLowerToUpper n M =
        fun a b => M a b + M b a - (if a = b then M a a else 0) := by
      rw [triLowerToUpper, if_pos hA]
    have hsym : npAllclose n (triLowerToUpper n M) (trQ (triLowerToUpper n M)) := by
      intro a _ b _
      simp only [hTLU, trQ]
      have hz : (M a b + M b a - (if a = b then M a a else 0)) -
          (M b a + M a b - (if b = a then M b b else 0)) = 0 := by
        by_cases hab : a = b
        · subst hab
          ring_nf
        · rw [if_neg hab, if_neg fun hba => hab hba.symm]
          ring
      rw [hz, abs_zero]
      positivity
    rw [fromMatrixNormalized, if_pos hsym]
    simp only [triuQ, hTLU]
    by_cases hij : i ≤ j
    · rw [if_pos hij]
      by_cases he : i = j
      · subst he
        simp
      · rw [if_neg he, hUT j i hj hi (lt_of_le_of_ne hij he)]
        ring
    · rw [if_neg hij, hUT i j hi hj (not_le.mp hij)]
  · have hTLU : triLowerToUpper n M = M := by rw [triLowerToUpper, if_neg hA]
    have hnsym : ¬ npAllclose n (triLowerToUpper n M) (trQ (triLowerToUpper n M)) := by
      rw [hTLU]
      intro hS
      apply hA
      intro a ha b hb
      rw [trilQ]
      by_cases hba : b ≤ a
      · rw [if_pos hba, sub_self, abs_zero]
        positivity
      · rw [if_neg hba]
        have h0 : M b a = 0 := hUT b a hb ha (not_le.mp hba)
        have hs := hS a ha b hb
        rw [trQ, h0] at hs
        exact hs
    rw [fromMatrixNormalized, if_neg hnsym, hTLU]

/-- On an exactly upper-triangular matrix the from_matrix validity test
passes (the matrix is allclose to its own np.triu), so from_matrix returns
the Qubo built from the row-major nonzero entries. -/
theorem fromMatrixOkUT (n : ℕ) (M : ℕ → ℕ → ℚ)
    (hUT : ∀ i j, i < n → j < n → j < i → M i j = 0) :
    Qubo.fromMatrix n M =
      Except.ok ⟨(utPairs n M).map Prod.fst, (utPairs n M).map Prod.snd⟩ := by
  have hpairs : quboPairs n M = utPairs n M := by
    rw [quboPairs, utPairs]
    refine flatMapCongr _ _ _ fun i hi => ?_
    have hi2 := List.mem_range.mp hi
    have hfil : (List.range n).filter (fun j => decide (fromMatrixNormalized n M i j ≠ 0)) =
        (List.range n).filter fun j => decide (M i j ≠ 0) := by
      refine List.filter_congr fun j hj => ?_
      rw [decide_eq_decide]
      rw [normalizedEqUT n M hUT i j hi2 (List.mem_range.mp hj)]
    rw [hfil]
    refine List.map_congr_left fun j hj => ?_
    have hj2 := List.mem_range.mp (List.mem_of_mem_filter hj)
    rw [normalizedEqUT n M hUT i j hi2 hj2]
  rw [Qubo.fromMatrix, if_pos, hpairs]
  refine Or.inr (Or.inl ?_)
  intro i hi j hj
  rw [triuQ]
  by_cases hij : i ≤ j
  · rw [if_pos hij, sub_self, abs_zero]
    positivity
  · rw [if_neg hij, hUT i j hi hj (not_le.mp hij), sub_zero, abs_zero]
    positivity

/-- Membership in the row-major nonzero-entry list. -/
theorem memUtPairs (n : ℕ) (M : ℕ → ℕ → ℚ) (p : (ℕ × ℕ) × ℚ) :
    p ∈ utPairs n M ↔
      ∃ i j, i < n ∧ j < n ∧ M i j ≠ 0 ∧ p = ((i, j), M i j) := by
  rw [utPairs]
  constructor
  · intro hp
    rcases List.mem_flatMap.mp hp with ⟨i, hi, hp2⟩
    rcases List.mem_map.mp hp2 with ⟨j, hj, rfl⟩
    rcases List.mem_filter.mp hj with ⟨hjr, hjd⟩
    exact ⟨i, j, List.mem_range.mp hi, List.mem_range.mp hjr,
      of_decide_eq_true hjd, rfl⟩
  · rintro ⟨i, j, hi, hj, hne, rfl⟩
    refine List.mem_flatMap.mpr ⟨i, List.mem_range.mpr hi, ?_⟩
    exact List.mem_map.mpr
      ⟨j, List.mem_filter.mpr ⟨List.mem_range.mpr hj, decide_eq_true hne⟩, rfl⟩

/-- Membership in the id list fed to Qubo.nodes for a from_matrix result. -/
theorem memUtIds (n : ℕ) (M : ℕ → ℕ → ℚ) (k : ℕ) :
    (k ∈ ((utPairs n M).map Prod.fst).map Prod.fst ++
      ((utPairs n M).map Prod.fst).map Prod.snd) ↔
      ∃ i j, i < n ∧ j < n ∧ M i j ≠ 0 ∧ (k = i ∨ k = j) := by
  rw [List.mem_append]
  constructor
  · rintro (hk | hk)
    · rcases List.mem_map.mp hk with ⟨t, ht, rfl⟩
      rcases List.mem_map.mp ht with ⟨p, hp, rfl⟩
      rcases (memUtPairs n M p).mp hp with ⟨i, j, hi, hj, hne, rfl⟩
      exact ⟨i, j, hi, hj, hne, Or.inl rfl⟩
    · rcases List.mem_map.mp hk with ⟨t, ht, rfl⟩
      rcases List.mem_map.mp ht with ⟨p, hp, rfl⟩
      rcases (memUtPairs n M p).mp hp with ⟨i, j, hi, hj, hne, rfl⟩
      exact ⟨i, j, hi, hj, hne, Or.inr rfl⟩
  · rintro ⟨i, j, hi, hj, hne, hk⟩
    have hp : ((i, j), M i j) ∈ utPairs n M :=
      (memUtPairs n M _).mpr ⟨i, j, hi, hj, hne, rfl⟩
    rcases hk with rfl | rfl
    · exact Or.inl (List.mem_map.mpr
        ⟨(k, j), List.mem_map.mpr ⟨((k, j), M k j), hp, rfl⟩, rfl⟩)
    · exact Or.inr (List.mem_map.mpr
        ⟨(i, k), List.mem_map.mpr ⟨((i, k), M i k), hp, rfl⟩, rfl⟩)

/-- When every index below n occurs in a nonzero entry, the node list of the
from_matrix Qubo is exactly the ascending range below n. -/
theorem nodesEqRangeUT (n : ℕ) (M : ℕ → ℕ → ℚ)
    (hAll : ∀ k, k < n → ∃ i j, i < n ∧ j < n ∧ M i j ≠ 0 ∧ (k = i ∨ k = j)) :
    (Qubo.mk ((utPairs n M).map Prod.fst) ((utPairs n M).map Prod.snd)).nodes =
      List.range n := by
  rw [Qubo.nodes]
  have hnd : ((((utPairs n M).map Prod.fst).map Prod.fst ++
      ((utPairs n M).map Prod.fst).map Prod.snd).dedup.mergeSort
        fun a b => decide (a ≤ b)).Nodup :=
    (List.mergeSort_perm _ _).symm.nodup (List.nodup_dedup _)
  refine List.eq_of_perm_of_sorted
    ((List.perm_ext_iff_of_nodup hnd (List.nodup_range n)).mpr ?_) ?_
    (List.sorted_le_range n)
  · intro a
    rw [List.mem_range, (List.mergeSort_perm _ _).mem_iff, List.mem_dedup]
    constructor
    · intro ha
      rcases (memUtIds n M a).mp ha with ⟨i, j, hi, hj, _, hk⟩
      rcases hk with rfl | rfl
      · exact hi
      · exact hj
    · intro ha
      exact (memUtIds n M a).mpr (hAll a ha)
  · have htrans : ∀ a b c : ℕ, decide (a ≤ b) = true → decide (b ≤ c) = true →
        decide (a ≤ c) = true := fun a b c hab hbc =>
      decide_eq_true (le_trans (of_decide_eq_true hab) (of_decide_eq_true hbc))
    have htot : ∀ a b : ℕ, (decide (a ≤ b) || decide (b ≤ a)) = true := by
      intro a b
      rw [Bool.or_eq_true]
      rcases le_total a b with h | h
      · exact Or.inl (decide_eq_true h)
      · exact Or.inr (decide_eq_true h)
    have hp := List.sorted_mergeSort htrans htot
      ((((utPairs n M).map Prod.fst).map Prod.fst ++
        ((utPairs n M).map Prod.fst).map Prod.snd).dedup)
    exact hp.imp fun h => of_decide_eq_true h

/-- indexOf commutes with mapping the successor. -/
theorem indexOfMapSucc (l : List ℕ) (a : ℕ) :
    (l.map Nat.succ).indexOf (Nat.succ a) = l.indexOf a := by
  induction l with
  | nil => rfl
  | cons b t ih =>
    by_cases hba : b = a
    · subst hba
      simp [List.indexOf_cons]
    · simp only [List.map_cons, List.indexOf_cons, ih]
      have h1 : (Nat.succ b == Nat.succ a) = false := by
        simp [hba]
      have h2 : (b == a) = false := by
        simp [hba]
      rw [h1, h2]

/-- indexOf on the range list is the identity below its length. -/
theorem indexOfRange (n k : ℕ) (hk : k < n) : (List.range n).indexOf k = k := by
  induction n generalizing k with
  | zero => omega
  | succ m ih =>
    rw [List.range_succ_eq_map]
    cases k with
    | zero => simp [List.indexOf_cons]
    | succ k2 =>
      rw [List.indexOf_cons]
      have h1 : ((0 : ℕ) == Nat.succ k2) = false := by simp
      rw [h1]
      show ((List.range m).map Nat.succ).indexOf (Nat.succ k2) + 1 = k2 + 1
      rw [indexOfMapSucc, ih k2 (by omega)]

/-- The term keys produced by from_matrix on any matrix region are pairwise
distinct: each row contributes distinct columns and rows do not overlap. -/
theorem utPairsKeysNodup (n : ℕ) (M : ℕ → ℕ → ℚ) :
    ((utPairs n M).map Prod.fst).Nodup := by
  rw [utPairs, List.map_flatMap]
  refine List.nodup_flatMap.mpr ⟨?_, ?_⟩
  · intro i _
    rw [List.map_map]
    refine List.Nodup.map ?_ ((List.nodup_range n).filter _)
    intro a b hab
    simpa using congrArg Prod.snd hab
  · refine (List.pairwise_lt_range n).imp ?_
    intro a b hab p hpa hpb
    simp only [List.map_map] at hpa hpb
    rcases List.mem_map.mp hpa with ⟨j1, _, rfl⟩
    rcases List.mem_map.mp hpb with ⟨j2, _, he⟩
    have : b = a := by simpa using congrArg Prod.fst he
    omega

/-- Evaluation of the as_matrix accumulation fold: the entry at (i, j) is
the base entry plus the sum of the coefficients of the terms that target
(i, j). -/
theorem foldAddApply (f g : (ℕ × ℕ) × ℚ → ℕ) (l : List ((ℕ × ℕ) × ℚ))
    (base : ℕ → ℕ → ℚ) (i j : ℕ) :
    (l.foldl (fun acc tc => fun i2 j2 =>
        if i2 = f tc ∧ j2 = g tc then acc i2 j2 + tc.2 else acc i2 j2) base) i j =
      base i j + ((l.filter fun tc => decide (i = f tc ∧ j = g tc)).map
        fun tc => tc.2).sum := by
  induction l generalizing base with
  | nil => simp
  | cons a t ih =>
    rw [List.foldl_cons, ih, List.filter_cons]
    by_cases h : i = f a ∧ j = g a
    · rw [if_pos h, if_pos (decide_eq_true h)]
      simp only [List.map_cons, List.sum_cons]
      ring
    · rw [if_neg h, if_neg (by simp [h] : ¬ (decide (i = f a ∧ j = g a) = true))]

/-- Filtering a key-nodup association list for a present key yields exactly
its entry. -/
theorem filterKeySingleton (l : List ((ℕ × ℕ) × ℚ)) (k : ℕ × ℕ) (v : ℚ)
    (hk : (l.map Prod.fst).Nodup) (hm : (k, v) ∈ l) :
    (l.filter fun tc => decide (tc.1 = k)) = [(k, v)] := by
  induction l with
  | nil => cases hm
  | cons a t ih =>
    rw [List.map_cons, List.nodup_cons] at hk
    rcases List.mem_cons.mp hm with rfl | hmt
    · rw [List.filter_cons, if_pos (decide_eq_true rfl)]
      have ht : (t.filter fun tc => decide (tc.1 = (k, v).1)) = [] := by
        refine List.filter_eq_nil_iff.mpr fun tc htc hd => ?_
        exact hk.1 ((of_decide_eq_true hd) ▸ List.mem_map_of_mem Prod.fst htc)
      rw [ht]
    · have hk1 : a.1 ≠ k := by
        intro he
        exact hk.1 (he ▸ List.mem_map_of_mem Prod.fst hmt)
      rw [List.filter_cons, if_neg (by simpa using hk1), ih hk.2 hmt]

/-- Filtering for an absent key yields the empty list. -/
theorem filterKeyNil (l : List ((ℕ × ℕ) × ℚ)) (k : ℕ × ℕ)
    (h : ∀ tc ∈ l, tc.1 ≠ k) :
    (l.filter fun tc => decide (tc.1 = k)) = [] :=
  List.filter_eq_nil_iff.mpr fun tc htc hd => h tc htc (of_decide_eq_true hd)

/-- The node list of any Qubo has no duplicates. -/
theorem nodesNodup (q : Qubo) : q.nodes.Nodup :=
  (List.mergeSort_perm _ _).symm.nodup (List.nodup_dedup _)

/-- Entry computation of as_matrix on the from_matrix result: on the
n-by-n region the reconstructed matrix equals the input. -/
theorem asMatrixEntryUT (n : ℕ) (M : ℕ → ℕ → ℚ)
    (hUT : ∀ i j, i < n → j < n → j < i → M i j = 0)
    (hAll : ∀ k, k < n → ∃ i j, i < n ∧ j < n ∧ M i j ≠ 0 ∧ (k = i ∨ k = j)) :
    ∀ i j, i < n → j < n →
      (Qubo.mk ((utPairs n M).map Prod.fst)
        ((utPairs n M).map Prod.snd)).asMatrix.2 i j = M i j := by
  intro i j hi hj
  have hzip : (Qubo.mk ((utPairs n M).map Prod.fst)
      ((utPairs n M).map Prod.snd)).terms.zip
      (Qubo.mk ((utPairs n M).map Prod.fst)
        ((utPairs n M).map Prod.snd)).coeffs = utPairs n M := by
    show ((utPairs n M).map Prod.fst).zip ((utPairs n M).map Prod.snd) = utPairs n M
    rw [List.zip_map']
    simp
  have hnodes := nodesEqRangeUT n M hAll
  simp only [Qubo.asMatrix, hzip, hnodes]
  rw [triuQ]
  by_cases hij : i ≤ j
  · rw [if_pos hij]
    rw [foldAddApply
      (fun tc => min ((List.range n).indexOf tc.1.1) ((List.range n).indexOf tc.1.2))
      (fun tc => max ((List.range n).indexOf tc.1.1) ((List.range n).indexOf tc.1.2))
      (utPairs n M) (fun _ _ => 0) i j]
    have hpred : ∀ tc ∈ utPairs n M,
        (decide (i = min ((List.range n).indexOf tc.1.1) ((List.range n).indexOf tc.1.2) ∧
          j = max ((List.range n).indexOf tc.1.1) ((List.range n).indexOf tc.1.2)))
          = decide (tc.1 = (i, j)) := by
      intro tc htc
      rcases (memUtPairs n M tc).mp htc with ⟨a, b, ha, hb, hne, rfl⟩
      have hab : a ≤ b := by
        by_contra hc
        exact hne (hUT a b ha hb (not_le.mp hc))
      show decide (i = min ((List.range n).indexOf a) ((List.range n).indexOf b) ∧
        j = max ((List.range n).indexOf a) ((List.range n).indexOf b)) = _
      rw [indexOfRange n a ha, indexOfRange n b hb, min_eq_left hab, max_eq_right hab,
        decide_eq_decide]
      constructor
      · rintro ⟨rfl, rfl⟩
        rfl
      · intro he
        injection he with h1 h2
        exact ⟨h1.symm, h2.symm⟩
    rw [List.filter_congr hpred]
    by_cases hz : M i j = 0
    · rw [filterKeyNil]
      · simp [hz]
      · intro tc htc he
        rcases (memUtPairs n M tc).mp htc with ⟨a, b, ha, hb, hne, rfl⟩
        have hab : a = i ∧ b = j := by
          have he2 : ((a, b) : ℕ × ℕ) = (i, j) := he
          injection he2 with h1 h2
          exact ⟨h1, h2⟩
        exact hne (hab.1 ▸ hab.2 ▸ hz)
    · rw [filterKeySingleton (utPairs n M) (i, j) (M i j) (utPairsKeysNodup n M)
        ((memUtPairs n M _).mpr ⟨i, j, hi, hj, hz, rfl⟩)]
      simp
  · rw [if_neg hij]
    exact (hUT i j hi hj (not_le.mp hij)).symm

/-- When some index below n occurs in no nonzero entry, the reconstructed
matrix is strictly smaller than n-by-n. -/
theorem asMatrixSizeLtUT (n : ℕ) (M : ℕ → ℕ → ℚ)
    (hUnused : ∃ k, k < n ∧ ∀ i j, i < n → j < n → M i j ≠ 0 → k ≠ i ∧ k ≠ j) :
    (Qubo.mk ((utPairs n M).map Prod.fst)
      ((utPairs n M).map Prod.snd)).asMatrix.1 < n := by
  rcases hUnused with ⟨k, hk, hnk⟩
  have hnd := nodesNodup (Qubo.mk ((utPairs n M).map Prod.fst)
    ((utPairs n M).map Prod.snd))
  have hsub : ∀ x ∈ (Qubo.mk ((utPairs n M).map Prod.fst)
      ((utPairs n M).map Prod.snd)).nodes, x < n ∧ x ≠ k := by
    intro x hx
    rw [Qubo.nodes, (List.mergeSort_perm _ _).mem_iff, List.mem_dedup] at hx
    rcases (memUtIds n M x).mp hx with ⟨i, j, hi, hj, hne, hor⟩
    rcases hnk i j hi hj hne with ⟨hki, hkj⟩
    rcases hor with rfl | rfl
    · exact ⟨hi, fun h => hki h.symm⟩
    · exact ⟨hj, fun h => hkj h.symm⟩
  have hfin : (Qubo.mk ((utPairs n M).map Prod.fst)
      ((utPairs n M).map Prod.snd)).nodes.toFinset ⊆ (Finset.range n).erase k := by
    intro x hx
    rw [List.mem_toFinset] at hx
    rcases hsub x hx with ⟨h1, h2⟩
    exact Finset.mem_erase.mpr ⟨h2, Finset.mem_range.mpr h1⟩
  have hcard := Finset.card_le_card hfin
  rw [Finset.card_erase_of_mem (Finset.mem_range.mpr hk), Finset.card_range,
    List.toFinset_card_of_nodup hnd] at hcard
  show (Qubo.mk ((utPairs n M).map Prod.fst)
    ((utPairs n M).map Prod.snd)).nodes.length < n
  omega

/-- Claim C10: for every exactly upper-triangular n-by-n rational matrix,
from_matrix succeeds, and as_matrix of the result reconstructs the matrix
exactly when every index below n occurs in some nonzero entry; when some
index occurs in no nonzero entry, the reconstructed matrix is strictly
smaller than n-by-n. -/
theorem c10_qubo_roundtrip (n : ℕ) (M : ℕ → ℕ → ℚ)
    (hUT : ∀ i j, i < n → j < n → j < i → M i j = 0) :
    ∃ q : Qubo, Qubo.fromMatrix n M = Except.ok q ∧
      ((∀ k, k < n → ∃ i j, i < n ∧ j < n ∧ M i j ≠ 0 ∧ (k = i ∨ k = j)) →
        q.asMatrix.1 = n ∧ ∀ i j, i < n → j < n → q.asMatrix.2 i j = M i j) ∧
      ((∃ k, k < n ∧ ∀ i j, i < n → j < n → M i j ≠ 0 → k ≠ i ∧ k ≠ j) →
        q.asMatrix.1 < n) := by
  refine ⟨_, fromMatrixOkUT n M hUT, ?_, asMatrixSizeLtUT n M⟩
  intro hAll
  constructor
  · show (Qubo.mk ((utPairs n M).map Prod.fst)
      ((utPairs n M).map Prod.snd)).nodes.length = n
    rw [nodesEqRangeUT n M hAll, List.length_range]
  · exact asMatrixEntryUT n M hUT hAll

/-- Fixture matrix for the C10 witness: 2-by-2 upper triangular with the
single nonzero entry 1 at (0, 1). -/
def mC10 : ℕ → ℕ → ℚ :=
  fun i j => if i = 0 ∧ j = 1 then 1 else 0

/-- Witness for c10_qubo_roundtrip on the fixture matrix. -/
theorem c10_witness :
    ∃ q : Qubo, Qubo.fromMatrix 2 mC10 = Except.ok q ∧
      ((∀ k, k < 2 → ∃ i j, i < 2 ∧ j < 2 ∧ mC10 i j ≠ 0 ∧ (k = i ∨ k = j)) →
        q.asMatrix.1 = 2 ∧ ∀ i j, i < 2 → j < 2 → q.asMatrix.2 i j = mC10 i j) ∧
      ((∃ k, k < 2 ∧ ∀ i j, i < 2 → j < 2 → mC10 i j ≠ 0 → k ≠ i ∧ k ≠ j) →
        q.asMatrix.1 < 2) :=
  c10_qubo_roundtrip 2 mC10 (by
    intro i j _ _ hji
    rw [mC10, if_neg]
    rintro ⟨rfl, rfl⟩
    omega)
